import Mathlib

/-!
# Verification of the NotionManager entity-resolution and mention-linking core

A shallow embedding of the algorithmic core of the NotionManager repository:

* `update_meeting.py`: `create_rich_text_with_entity_links` and
  `create_rich_text_with_people_links` (the mention linker), including the
  variation synthesis and the longest-first stable sort;
* `people_manager.py`: `extract_person_names`, `_is_likely_person_name`,
  `find_matching_person`, `get_all_people`, `create_person`.

Text is embedded as `List Char` (`Str`). Python floats returned by
`difflib.SequenceMatcher(...).ratio()` are modelled as rationals `ℚ`;
the similarity metric itself is an external-library call and therefore a
parameter `sim` of the embedding, applied to the lowercased strings exactly
as the source does. External I/O (the Notion HTTP store) is modelled as
explicit function parameters; the `while` loops of the source are given a
fuel argument, and a `none` result means the source loop does not terminate.
-/

namespace NotionManager

/-- Text, embedded as a list of characters. -/
abbrev Str := List Char

/-- Python `str.lower()` / the effect of `re.IGNORECASE` on ASCII letters. -/
def pyLower (s : Str) : Str := s.map Char.toLower

/-- Case-insensitive literal match of `pat` at the head of `s` (the semantics
of `re.compile(re.escape(pat), re.IGNORECASE)` testing one position). -/
def ciAt : Str → Str → Bool
  | [], _ => true
  | _ :: _, [] => false
  | p :: ps, c :: cs => (Char.toLower p == Char.toLower c) && ciAt ps cs

/-- Helper for `findCI`: first index `≥ i` (counting from the original start)
at which `pat` matches case-insensitively. -/
def findCIAux (pat : Str) : Str → Nat → Option Nat
  | [], i => if ciAt pat [] then some i else none
  | c :: rest, i => if ciAt pat (c :: rest) then some i else findCIAux pat rest (i + 1)

/-- Embedding of `re.compile(re.escape(pat), re.IGNORECASE).search(s)`:
index of the leftmost case-insensitive occurrence of the literal `pat`. -/
def findCI (pat s : Str) : Option Nat := findCIAux pat s 0

/-- One candidate surface form, paired with the payload the source keeps with
it (`{'text': variation, 'entity': entity}` in `create_rich_text_with_entity_links`;
the person name itself in `create_rich_text_with_people_links`). -/
structure Variation (α : Type) where
  text : Str
  payload : α
  deriving DecidableEq

/-- The source's `earliest_match` dictionary: payload, `match.start()`,
`match.end()` and `match.group()`. -/
structure MatchData (α : Type) where
  payload : α
  start : Nat
  stop : Nat
  matched : Str
  deriving DecidableEq

/-- The scan over `all_variations` inside the `while` loop of both linkers:
keep the match with the strictly smallest `match.start()`, scanning the
variations in list order (`earliest_pos` starts at `len(remaining_text)`). -/
def searchVars {α : Type} : List (Variation α) → Str → Option (MatchData α) → Nat → Option (MatchData α)
  | [], _, best, _ => best
  | v :: rest, rem, best, bestPos =>
    match findCI v.text rem with
    | some i =>
      if i < bestPos then
        searchVars rest rem (some ⟨v.payload, i, i + v.text.length, (rem.drop i).take v.text.length⟩) i
      else
        searchVars rest rem best bestPos
    | none => searchVars rest rem best bestPos

/-- One iteration's match selection (`earliest_match` after the `for` loop). -/
def findEarliest {α : Type} (vars : List (Variation α)) (rem : Str) : Option (MatchData α) :=
  searchVars vars rem none rem.length

/-- One element of the `rich_text_parts` output: the `content` string and the
optional `link` the source attaches when the page lookup succeeds. -/
structure RichText where
  content : Str
  link : Option Str
  deriving DecidableEq

/-- Concatenation of the `content` fields of an output span list. -/
def contentConcat : List RichText → Str
  | [] => []
  | r :: rest => r.content ++ contentConcat rest

/-- The `while remaining_text:` loop shared verbatim by both linkers.
`linkFor` models the external page lookup (`get_person_link` /
`get_project_link`). `fuel` bounds the number of iterations; `none` means
the source loop runs out of iterations, i.e. does not terminate. -/
def linkLoop {α : Type} (linkFor : α → Option Str) : Nat → List (Variation α) → Str → Option (List RichText)
  | 0, _, _ => none
  | _ + 1, _, [] => some []
  | fuel + 1, vars, c :: rest =>
    match findEarliest vars (c :: rest) with
    | some m =>
      let pre : List RichText := if 0 < m.start then [⟨(c :: rest).take m.start, none⟩] else []
      match linkLoop linkFor fuel vars ((c :: rest).drop m.stop) with
      | some parts => some (pre ++ ⟨m.matched, linkFor m.payload⟩ :: parts)
      | none => none
    | none => some [⟨c :: rest, none⟩]

/-- Stable insertion used to model Python's stable `list.sort(key=len, reverse=True)`:
`x` goes in front of the first element with a strictly smaller key, so equal
keys keep their original relative order and the list is descending by key. -/
def insertDesc {α : Type} (key : α → Nat) (x : α) : List α → List α
  | [] => [x]
  | y :: ys => if key y < key x then x :: y :: ys else y :: insertDesc key x ys

/-- Python's stable `sort(key=..., reverse=True)` on a list. -/
def pySortDesc {α : Type} (key : α → Nat) (l : List α) : List α :=
  l.foldl (fun acc x => insertDesc key x acc) []

/-- The `'type'` field of an entity dictionary. -/
inductive EntityType
  | person
  | project
  deriving DecidableEq

/-- An entity dictionary built at the top of `create_rich_text_with_entity_links`:
`{'name': name, 'type': ..., 'variations': [...]}`. -/
structure Entity where
  name : Str
  etype : EntityType
  variations : List Str
  deriving DecidableEq

/-- The string `" project"` appended to names when synthesizing variations. -/
def projSuffix : Str := (" project").toList

/-- The string `"the "` prepended for the third project variation. -/
def thePrefixStr : Str := ("the ").toList

/-- The entity list built by `create_rich_text_with_entity_links` lines 234-255:
every person name contributes `[name, name + " project"]`, every project name
contributes `[name, name + " project", "the " + name + " project"]`. -/
def buildEntities (people_names project_names : List Str) : List Entity :=
  people_names.map (fun n => ⟨n, EntityType.person, [n, n ++ projSuffix]⟩)
    ++ project_names.map (fun n => ⟨n, EntityType.project, [n, n ++ projSuffix, thePrefixStr ++ n ++ projSuffix]⟩)

/-- The flattened `all_variations` list (before sorting). -/
def allVariations (es : List Entity) : List (Variation Entity) :=
  es.flatMap (fun e => e.variations.map (fun v => ⟨v, e⟩))

/-- Embedding of `create_rich_text_with_entity_links` (update_meeting.py
lines 216-333), past its environment-variable configuration: the entity list
is built from the fetched name lists, variations are stable-sorted longest
first, and the `while` loop rewrites the text. `personLink`/`projectLink`
model the external `get_person_link`/`get_project_link` lookups. -/
def create_rich_text_with_entity_links (personLink projectLink : Str → Option Str)
    (people_names project_names : List Str) (text : Str) : Option (List RichText) :=
  let entities := buildEntities people_names project_names
  if entities.isEmpty then some [⟨text, none⟩]
  else
    let all_variations := pySortDesc (fun v => v.text.length) (allVariations entities)
    linkLoop
      (fun e => match e.etype with
        | EntityType.person => personLink e.name
        | EntityType.project => projectLink e.name)
      (text.length + 1) all_variations text

/-- Embedding of `create_rich_text_with_people_links` (update_meeting.py
lines 335-417), past its configuration: the fetched people names are
stable-sorted longest first and used directly as the variation list. -/
def create_rich_text_with_people_links (personLink : Str → Option Str)
    (people_names : List Str) (text : Str) : Option (List RichText) :=
  if people_names.isEmpty then some [⟨text, none⟩]
  else
    let sorted := pySortDesc (fun n => n.length) people_names
    linkLoop personLink (text.length + 1) (sorted.map (fun n => ⟨n, n⟩)) text


/-! ## people_manager.py: name extraction -/

/-- Python `\s` on ASCII: the whitespace class used by `re` and `str.strip()`. -/
def isSpaceP (c : Char) : Bool :=
  c == ' ' || c == '\t' || c == '\n' || c == '\r' || c == Char.ofNat 11 || c == Char.ofNat 12

/-- The character class `[^.!?\n]` of the attendees pattern. -/
def nonTerm (c : Char) : Bool := !(c == '.' || c == '!' || c == '?' || c == '\n')

/-- ASCII `[A-Z]`; also Python's `str.isupper()` on a single ASCII character. -/
def isUpperA (c : Char) : Bool := 'A' ≤ c && c ≤ 'Z'

/-- ASCII `[a-z]`. -/
def isLowerA (c : Char) : Bool := 'a' ≤ c && c ≤ 'z'

/-- The class `[A-Z]` of the speaker pattern, under optional `re.IGNORECASE`. -/
def classUpper (ci : Bool) (c : Char) : Bool := isUpperA c || (ci && isLowerA c)

/-- The class `[a-z]` of the speaker pattern, under optional `re.IGNORECASE`. -/
def classLower (ci : Bool) (c : Char) : Bool := isLowerA c || (ci && isUpperA c)

/-- Maximal run of characters satisfying `p` (a greedy `X*` whose follower
cannot overlap `X`, so no backtracking is needed), and the remainder. -/
def takeRun (p : Char → Bool) : Str → Str × Str
  | [] => ([], [])
  | c :: rest =>
    if p c then
      let pr := takeRun p rest
      (c :: pr.1, pr.2)
    else ([], c :: rest)

/-- Python `str.strip()` (ASCII whitespace). -/
def pyStrip (s : Str) : Str := ((s.dropWhile isSpaceP).reverse.dropWhile isSpaceP).reverse

/-- Helper for `splitLines`. -/
def splitLinesAux : Str → Str → List Str
  | [], cur => [cur.reverse]
  | c :: rest, cur =>
    if c == '\n' then cur.reverse :: splitLinesAux rest []
    else splitLinesAux rest (c :: cur)

/-- Python `text.split('\n')` (keeps empty pieces). -/
def splitLines (s : Str) : List Str := splitLinesAux s []

/-- The separator class `[,;&]` of `re.split(r'[,;&]+', ...)`. -/
def isSep (c : Char) : Bool := c == ',' || c == ';' || c == '&'

/-- Helper for `splitSeps`; the flag records being inside a separator run, so
a maximal `[,;&]+` run produces a single split point. -/
def splitSepsAux : Str → Str → Bool → List Str
  | [], cur, _ => [cur.reverse]
  | c :: rest, cur, inSep =>
    if isSep c then
      if inSep then splitSepsAux rest [] true
      else cur.reverse :: splitSepsAux rest [] true
    else splitSepsAux rest (c :: cur) false

/-- Python `re.split(r'[,;&]+', s)`. -/
def splitSeps (s : Str) : List Str := splitSepsAux s [] false

/-- Helper for `wordCount`; the flag records being inside a word. -/
def wordCountAux : Str → Bool → Nat
  | [], _ => 0
  | c :: rest, inWord =>
    if isSpaceP c then wordCountAux rest false
    else (if inWord then 0 else 1) + wordCountAux rest true

/-- Python `len(s.split())`: the number of maximal non-whitespace runs. -/
def wordCount (s : Str) : Nat := wordCountAux s false

/-- Match `[A-Z][a-z]+` at the head of the input (both runs are greedy; the
regex follower is `\s` or `:`, disjoint from the letter classes, so greedy
matching without backtracking is exact). Returns the word and the rest. -/
def matchWord (ci : Bool) : Str → Option (Str × Str)
  | [] => none
  | c :: rest =>
    if classUpper ci c then
      let pr := takeRun (classLower ci) rest
      if pr.1.isEmpty then none else some (c :: pr.1, pr.2)
    else none

/-- Match the speaker pattern `^([A-Z][a-z]+(?:\s+[A-Z][a-z]+)?):\s` at the
head of the input: one capitalized word, a greedy optional second one, a
colon and one whitespace character. Returns group 1, the whitespace character
consumed after the colon, and the rest after the match. -/
def matchSpeakerAt (ci : Bool) (s : Str) : Option (Str × Char × Str) :=
  match matchWord ci s with
  | none => none
  | some (w1, rest1) =>
    let withSecond :=
      let pr := takeRun isSpaceP rest1
      if pr.1.isEmpty then none
      else
        match matchWord ci pr.2 with
        | none => none
        | some (w2, rest2) =>
          match rest2 with
          | ':' :: sp :: rest3 =>
            if isSpaceP sp then some (w1 ++ pr.1 ++ w2, sp, rest3) else none
          | _ => none
    match withSecond with
    | some r => some r
    | none =>
      match rest1 with
      | ':' :: sp :: rest3 => if isSpaceP sp then some (w1, sp, rest3) else none
      | _ => none

/-- Helper for `speakerCIMatches`: `re.finditer` over the text with the
`^`-anchored speaker pattern under `re.MULTILINE | re.IGNORECASE`. The flag
records whether the current position is a line start; after a match the scan
resumes at the match end (matches never overlap). -/
def speakerScan : Nat → Bool → Str → List Str
  | 0, _, _ => []
  | _ + 1, _, [] => []
  | fuel + 1, atStart, c :: rest =>
    if atStart then
      match matchSpeakerAt true (c :: rest) with
      | some (g, sp, restAfter) => g :: speakerScan fuel (sp == '\n') restAfter
      | none => speakerScan fuel (c == '\n') rest
    else speakerScan fuel (c == '\n') rest

/-- All group-1 captures of the speaker pattern under
`re.IGNORECASE | re.MULTILINE` (the second entry of `patterns[:-1]`). -/
def speakerCIMatches (text : Str) : List Str := speakerScan (text.length + 1) true text

/-- Case-insensitive literal keyword at the head of the input; returns the rest. -/
def ciPrefixDrop : Str → Str → Option Str
  | [], s => some s
  | _ :: _, [] => none
  | k :: ks, c :: cs => if Char.toLower c == Char.toLower k then ciPrefixDrop ks cs else none

/-- Greedy `s?:` after a keyword: an optional `s`/`S` (tried first) followed
by a literal colon. -/
def afterKwS : Str → Option Str
  | c :: ':' :: r3 => if c == 's' || c == 'S' then some r3 else none
  | _ => none

/-- A literal colon at the head of the input. -/
def colonDrop : Str → Option Str
  | ':' :: r3 => some r3
  | _ => none

/-- The keyword group `(?:attendees?|participants?|people):` of the attendees
pattern, case-insensitively, alternatives in regex order with the greedy
optional `s` tried first. -/
def matchKwColon (s : Str) : Option Str :=
  (do
    let r ← ciPrefixDrop (("attendee").toList) s
    match afterKwS r with
    | some r3 => some r3
    | none => colonDrop r) <|>
  (do
    let r ← ciPrefixDrop (("participant").toList) s
    match afterKwS r with
    | some r3 => some r3
    | none => colonDrop r) <|>
  (do
    let r ← ciPrefixDrop (("people").toList) s
    colonDrop r)

/-- The tail `\s*([^.!?\n]+)` of the attendees pattern, with the regex's
backtracking order: the greedy `\s*` is consumed first and gives characters
back one at a time until the group can start. Returns group 1 (greedy, and
final since nothing follows it) and the rest after the match. -/
def wsGroup : Str → Option (Str × Str)
  | [] => none
  | c :: rest =>
    if isSpaceP c then
      match wsGroup rest with
      | some gr => some gr
      | none => if nonTerm c then some (takeRun nonTerm (c :: rest)) else none
    else if nonTerm c then some (takeRun nonTerm (c :: rest)) else none

/-- The whole attendees pattern `(?:attendees?|participants?|people):\s*([^.!?\n]+)`
at one position. -/
def matchAttendeesAt (s : Str) : Option (Str × Str) :=
  match matchKwColon s with
  | none => none
  | some r => wsGroup r

/-- Helper for `attendeesMatches`: `re.finditer` without anchors scans every
position left to right and resumes after each match end. -/
def attendeeScan : Nat → Str → List Str
  | 0, _ => []
  | _ + 1, [] => []
  | fuel + 1, c :: rest =>
    match matchAttendeesAt (c :: rest) with
    | some (g, restAfter) => g :: attendeeScan fuel restAfter
    | none => attendeeScan fuel rest

/-- All group-1 captures of the attendees pattern (`patterns[0]`);
`re.IGNORECASE` is built into the matcher and `re.MULTILINE` is inert since
the pattern has no anchors. -/
def attendeesMatches (text : Str) : List Str := attendeeScan (text.length + 1) text

/-- The `non_names` stoplist of `_is_likely_person_name`. -/
def non_names : List Str :=
  (["Team", "Meeting", "Call", "Discussion", "Review", "Update",
    "Monday", "Tuesday", "Wednesday", "Thursday", "Friday", "Saturday", "Sunday",
    "January", "February", "March", "April", "May", "June",
    "July", "August", "September", "October", "November", "December",
    "AM", "PM", "EST", "PST", "UTC", "GMT"]).map String.toList

/-- The apostrophe character of the class `[A-Za-z\s\-']`. -/
def apos : Char := Char.ofNat 39

/-- The character class `[A-Za-z\s\-']` of the name-validity regex. -/
def isNameChar (c : Char) : Bool :=
  isUpperA c || isLowerA c || isSpaceP c || c == '-' || c == apos

/-- Embedding of `_is_likely_person_name` (people_manager.py lines 141-175):
length in [2,50], uppercase first character, not in the stoplist, and a full
match of `^[A-Za-z\s\-']+$`. -/
def is_likely_person_name (name : Str) : Bool :=
  if name.length < 2 || 50 < name.length then false
  else
    match name with
    | [] => false
    | c0 :: _ =>
      if !(isUpperA c0) then false
      else if non_names.contains name then false
      else if !(name.all isNameChar) then false
      else true

/-- Add to the accumulated set (Python `set.add`; membership-deduplicated,
insertion-ordered here — the claims about `extract_person_names` are
order-insensitive). -/
def addName (acc : List Str) (n : Str) : List Str := if acc.contains n then acc else acc ++ [n]

/-- The body shared by both `finditer` patterns: strip the capture, split it
on `[,;&]+`, strip each piece and keep the likely names of at most 3 words. -/
def addGroupNames (acc : List Str) (g : Str) : List Str :=
  (splitSeps (pyStrip g)).foldl
    (fun acc n =>
      let n := pyStrip n
      if is_likely_person_name n && decide (wordCount n ≤ 3) then addName acc n else acc)
    acc

/-- Embedding of `extract_person_names` (people_manager.py lines 93-139):
the per-line case-sensitive speaker match, then the attendees pattern and
the case-insensitive multiline speaker pattern via `finditer`. -/
def extract_person_names (text : Str) : List Str :=
  let s1 := (splitLines text).foldl
    (fun acc line =>
      match matchSpeakerAt false (pyStrip line) with
      | some (g, _, _) =>
        let name := pyStrip g
        if is_likely_person_name name then addName acc name else acc
      | none => acc)
    []
  let s2 := (attendeesMatches text).foldl addGroupNames s1
  (speakerCIMatches text).foldl addGroupNames s2

/-! ## people_manager.py: directory cache, resolver, registrar -/

/-- A People-database record, reduced to what the core reads:
`properties.Name.title[0].text.content`, or `none` when the `title` array is
missing or empty (such records are skipped by `find_matching_person`). -/
structure Person where
  title : Option Str
  deriving DecidableEq

/-- One response of the paginated `databases/{id}/query` call. -/
structure Page where
  results : List Person
  has_more : Bool
  next_cursor : Option Nat
  deriving DecidableEq

/-- The `while has_more:` pagination loop of `get_all_people`. `store` maps a
request's `start_cursor` to the store's response; an `Except.error` response
models `requests.exceptions.RequestException`. `none` means the loop runs out
of fuel, i.e. the source loop does not terminate. -/
def fetchLoop (store : Option Nat → Except Unit Page) :
    Nat → Option Nat → List Person → Option (Except Unit (List Person))
  | 0, _, _ => none
  | fuel + 1, cursor, acc =>
    match store cursor with
    | Except.error e => some (Except.error e)
    | Except.ok page =>
      if page.has_more then fetchLoop store fuel page.next_cursor (acc ++ page.results)
      else some (Except.ok (acc ++ page.results))

/-- Embedding of `get_all_people` (people_manager.py lines 53-91), returning
the pair (new cache state, returned list). On a request failure the `except`
branch returns `[]` and leaves `self._people_cache` unassigned; on success
the cache is replaced atomically after the loop. -/
def get_all_people (store : Option Nat → Except Unit Page) (fuel : Nat)
    (cache : Option (List Person)) (force_refresh : Bool) :
    Option (Option (List Person) × List Person) :=
  if cache.isNone || force_refresh then
    match fetchLoop store fuel none [] with
    | none => none
    | some (Except.error _) => some (cache, [])
    | some (Except.ok all_people) => some (some all_people, all_people)
  else
    some (cache, cache.getD [])

/-- Embedding of `create_person` (people_manager.py lines 212-265), returning
the pair (new cache state, returned record). `createResult` is the external
store's answer to the create call; on success the cache is set to `None`
(invalidated), on failure it is left untouched and `None` is returned. -/
def create_person (createResult : Except Unit Person) (cache : Option (List Person)) :
    Option (List Person) × Option Person :=
  match createResult with
  | Except.ok p => (none, some p)
  | Except.error _ => (cache, none)

/-- The loop of `find_matching_person`: fold over the records, skipping those
without a title, updating on `score > best_score and score >= threshold`.
`sim` is the external `difflib.SequenceMatcher(None, a, b).ratio()` metric,
applied to the lowercased strings exactly as the source does. -/
def fmpAux (sim : Str → Str → ℚ) (name : Str) (threshold : ℚ) :
    List Person → Option Person → ℚ → Option Person
  | [], best, _ => best
  | p :: rest, best, best_score =>
    match p.title with
    | none => fmpAux sim name threshold rest best best_score
    | some person_name =>
      let score := sim (pyLower name) (pyLower person_name)
      if best_score < score ∧ threshold ≤ score then fmpAux sim name threshold rest (some p) score
      else fmpAux sim name threshold rest best best_score

/-- Embedding of `find_matching_person` (people_manager.py lines 177-210)
applied to an already-fetched directory list; `best_score` starts at `0.0`. -/
def find_matching_person (sim : Str → Str → ℚ) (people : List Person)
    (name : Str) (threshold : ℚ) : Option Person :=
  fmpAux sim name threshold people none 0

/-- The scored directory: each record with a title, paired with its
similarity score against `name` (the sequence `find_matching_person` scans). -/
def vScores (sim : Str → Str → ℚ) (name : Str) (people : List Person) : List (Person × ℚ) :=
  people.filterMap (fun p => p.title.map (fun t => (p, sim (pyLower name) (pyLower t))))

end NotionManager

namespace NotionManager

/-! ## Facts about the case-insensitive literal search -/

theorem ciAt_length : ∀ {pat s : Str}, ciAt pat s = true → pat.length ≤ s.length := by
  intro pat
  induction pat with
  | nil => intro s _; exact Nat.zero_le _
  | cons p ps ih =>
    intro s h
    cases s with
    | nil => simp [ciAt] at h
    | cons c cs =>
      simp only [ciAt, Bool.and_eq_true] at h
      exact Nat.succ_le_succ (ih h.2)

theorem findCIAux_facts : ∀ (pat s : Str) (j i : Nat), findCIAux pat s j = some i →
    j ≤ i ∧ i - j ≤ s.length ∧ ciAt pat (s.drop (i - j)) = true := by
  intro pat s
  induction s with
  | nil =>
    intro j i h
    simp only [findCIAux] at h
    by_cases hc : ciAt pat [] = true
    · rw [if_pos hc] at h
      cases h
      simpa using hc
    · rw [if_neg hc] at h
      cases h
  | cons c rest ih =>
    intro j i h
    simp only [findCIAux] at h
    by_cases hc : ciAt pat (c :: rest) = true
    · rw [if_pos hc] at h
      cases h
      simpa using hc
    · rw [if_neg hc] at h
      obtain ⟨h1, h2, h3⟩ := ih (j + 1) i h
      refine ⟨by omega, by simpa using by omega, ?_⟩
      have hij : i - j = (i - (j + 1)) + 1 := by omega
      rw [hij, List.drop_succ_cons]
      exact h3

theorem findCI_facts {pat s : Str} {i : Nat} (h : findCI pat s = some i) :
    i ≤ s.length ∧ ciAt pat (s.drop i) = true := by
  obtain ⟨_, h2, h3⟩ := findCIAux_facts pat s 0 i h
  simpa using ⟨h2, h3⟩

theorem findCIAux_none : ∀ (pat s : Str) (j : Nat), findCIAux pat s j = none →
    ∀ i, ciAt pat (s.drop i) = false := by
  intro pat s
  induction s with
  | nil =>
    intro j h i
    simp only [findCIAux] at h
    by_cases hc : ciAt pat [] = true
    · rw [if_pos hc] at h; cases h
    · simpa using hc
  | cons c rest ih =>
    intro j h i
    simp only [findCIAux] at h
    by_cases hc : ciAt pat (c :: rest) = true
    · rw [if_pos hc] at h; cases h
    · rw [if_neg hc] at h
      cases i with
      | zero => simpa using hc
      | succ i => rw [List.drop_succ_cons]; exact ih (j + 1) h i

theorem findCIAux_min : ∀ (pat s : Str) (j i : Nat), findCIAux pat s j = some i →
    ∀ d, j + d < i → ciAt pat (s.drop d) = false := by
  intro pat s
  induction s with
  | nil =>
    intro j i h d hd
    simp only [findCIAux] at h
    by_cases hc : ciAt pat [] = true
    · rw [if_pos hc] at h; cases h; omega
    · rw [if_neg hc] at h; cases h
  | cons c rest ih =>
    intro j i h d hd
    simp only [findCIAux] at h
    by_cases hc : ciAt pat (c :: rest) = true
    · rw [if_pos hc] at h; cases h; omega
    · rw [if_neg hc] at h
      cases d with
      | zero => simpa using hc
      | succ d => rw [List.drop_succ_cons]; exact ih (j + 1) i h d (by omega)

theorem findCI_complete {pat s : Str} {i : Nat} (hci : ciAt pat (s.drop i) = true) :
    ∃ j, j ≤ i ∧ findCI pat s = some j := by
  cases hfc : findCI pat s with
  | none =>
    have := findCIAux_none pat s 0 hfc i
    rw [hci] at this
    cases this
  | some j =>
    refine ⟨j, ?_, rfl⟩
    by_contra hlt
    have := findCIAux_min pat s 0 j hfc i (by omega)
    rw [hci] at this
    cases this

/-! ## The slice identity behind the round trip -/

theorem slice_id {β : Type} (l : List β) (i L : Nat) :
    l.take i ++ ((l.drop i).take L ++ l.drop (i + L)) = l := by
  rw [← List.drop_drop, List.take_append_drop, List.take_append_drop]

/-- The shape every selected match has: a positive width, `stop = start + width`,
and `matched` equal to the corresponding slice of the remaining text. -/
def MOk {α : Type} (rem : Str) (m : MatchData α) : Prop :=
  ∃ L, 0 < L ∧ m.stop = m.start + L ∧ m.matched = (rem.drop m.start).take L

theorem searchVars_MOk {α : Type} :
    ∀ (vars : List (Variation α)) (rem : Str) (best : Option (MatchData α)) (bestPos : Nat)
      (m : MatchData α),
      searchVars vars rem best bestPos = some m →
      (∀ m', best = some m' → MOk rem m') →
      (∀ v ∈ vars, v.text ≠ []) → MOk rem m := by
  intro vars
  induction vars with
  | nil =>
    intro rem best bestPos m h hb _
    exact hb m h
  | cons v rest ih =>
    intro rem best bestPos m h hb hne
    simp only [searchVars] at h
    cases hf : findCI v.text rem with
    | none =>
      simp only [hf] at h
      exact ih rem best bestPos m h hb (fun u hu => hne u (List.mem_cons_of_mem _ hu))
    | some i =>
      simp only [hf] at h
      by_cases hlt : i < bestPos
      · rw [if_pos hlt] at h
        refine ih rem _ i m h ?_ (fun u hu => hne u (List.mem_cons_of_mem _ hu))
        intro m' hm'
        cases hm'
        exact ⟨v.text.length, List.length_pos.mpr (hne v (List.mem_cons_self _ _)), rfl, rfl⟩
      · rw [if_neg hlt] at h
        exact ih rem best bestPos m h hb (fun u hu => hne u (List.mem_cons_of_mem _ hu))

theorem contentConcat_append (a b : List RichText) :
    contentConcat (a ++ b) = contentConcat a ++ contentConcat b := by
  induction a with
  | nil => rfl
  | cons r rs ih => simp [contentConcat, ih]

theorem linkLoop_roundTrip {α : Type} (linkFor : α → Option Str) :
    ∀ (fuel : Nat) (vars : List (Variation α)) (rem : Str),
      (∀ v ∈ vars, v.text ≠ []) → rem.length < fuel →
      ∃ parts, linkLoop linkFor fuel vars rem = some parts ∧ contentConcat parts = rem := by
  intro fuel
  induction fuel with
  | zero =>
    intro vars rem _ h
    exact absurd h (Nat.not_lt_zero _)
  | succ fuel ih =>
    intro vars rem hne hlen
    cases rem with
    | nil => exact ⟨[], rfl, rfl⟩
    | cons c rest =>
      cases hf : findEarliest vars (c :: rest) with
      | none =>
        refine ⟨[⟨c :: rest, none⟩], ?_, ?_⟩
        · simp [linkLoop, hf]
        · simp [contentConcat]
      | some m =>
        have hmok : MOk (c :: rest) m := by
          refine searchVars_MOk vars (c :: rest) none (c :: rest).length m ?_ ?_ hne
          · simpa [findEarliest] using hf
          · intro m' h'; cases h'
        obtain ⟨L, hL, hstop, hmatch⟩ := hmok
        have hrec : ((c :: rest).drop m.stop).length < fuel := by
          rw [List.length_drop]
          simp only [List.length_cons] at hlen ⊢
          omega
        obtain ⟨parts, hp, hcat⟩ := ih vars ((c :: rest).drop m.stop) hne hrec
        refine ⟨(if 0 < m.start then [⟨(c :: rest).take m.start, none⟩] else [])
          ++ ⟨m.matched, linkFor m.payload⟩ :: parts, ?_, ?_⟩
        · simp only [linkLoop, hf, hp]
        · have key : (c :: rest).take m.start ++ (m.matched ++ (c :: rest).drop m.stop)
              = c :: rest := by
            rw [hmatch, hstop]
            exact slice_id (c :: rest) m.start L
          rw [contentConcat_append]
          by_cases h0 : 0 < m.start
          · rw [if_pos h0]
            simpa [contentConcat, hcat] using key
          · rw [if_neg h0]
            have h00 : m.start = 0 := by omega
            rw [h00, List.take_zero, List.nil_append] at key
            simpa [contentConcat, hcat] using key


/-! ## The selection order of the match scan (smallest offset, list order on ties) -/

/-- The relation between a selected match and the variation it came from:
the variation's leftmost occurrence is at `m.start` and `m` records that
variation's payload, end position and matched slice. -/
def WSpec {α : Type} (rem : Str) (v : Variation α) (m : MatchData α) : Prop :=
  findCI v.text rem = some m.start ∧ m.payload = v.payload ∧
    m.stop = m.start + v.text.length ∧ m.matched = (rem.drop m.start).take v.text.length

theorem searchVars_spec {α : Type} :
    ∀ (vars : List (Variation α)) (rem : Str) (best : Option (MatchData α)) (bestPos : Nat)
      (m : MatchData α),
      searchVars vars rem best bestPos = some m →
      (∀ m', best = some m' → bestPos ≤ m'.start) →
      ((m.start < bestPos →
          ∃ l1 v l2, vars = l1 ++ v :: l2 ∧ WSpec rem v m ∧
            (∀ u ∈ l1, ∀ i, findCI u.text rem = some i → m.start < i) ∧
            (∀ u ∈ vars, ∀ i, findCI u.text rem = some i → m.start ≤ i)) ∧
       (¬ m.start < bestPos → best = some m ∧
          ∀ u ∈ vars, ∀ i, findCI u.text rem = some i → bestPos ≤ i)) := by
  intro vars
  induction vars with
  | nil =>
    intro rem best bestPos m h hb
    constructor
    · intro hma
      have := hb m h
      omega
    · intro _
      exact ⟨h, by simp⟩
  | cons v rest ih =>
    intro rem best bestPos m h hb
    simp only [searchVars] at h
    cases hf : findCI v.text rem with
    | none =>
      simp only [hf] at h
      obtain ⟨A, B⟩ := ih rem best bestPos m h hb
      constructor
      · intro hma
        obtain ⟨l1, w, l2, h1, h2, h3, h4⟩ := A hma
        refine ⟨v :: l1, w, l2, by simp [h1], h2, ?_, ?_⟩
        · intro u hu i hi
          rcases List.mem_cons.mp hu with rfl | hu
          · rw [hf] at hi; cases hi
          · exact h3 u hu i hi
        · intro u hu i hi
          rcases List.mem_cons.mp hu with rfl | hu
          · rw [hf] at hi; cases hi
          · exact h4 u hu i hi
      · intro hma
        obtain ⟨h1, h2⟩ := B hma
        refine ⟨h1, ?_⟩
        intro u hu i hi
        rcases List.mem_cons.mp hu with rfl | hu
        · rw [hf] at hi; cases hi
        · exact h2 u hu i hi
    | some i =>
      simp only [hf] at h
      by_cases hlt : i < bestPos
      · rw [if_pos hlt] at h
        obtain ⟨A, B⟩ := ih rem
          (some ⟨v.payload, i, i + v.text.length, (rem.drop i).take v.text.length⟩) i m h
          (by intro m' hm'; cases hm'; exact le_refl _)
        by_cases hma : m.start < i
        · obtain ⟨l1, w, l2, h1, h2, h3, h4⟩ := A hma
          constructor
          · intro _
            refine ⟨v :: l1, w, l2, by simp [h1], h2, ?_, ?_⟩
            · intro u hu j hj
              rcases List.mem_cons.mp hu with rfl | hu
              · rw [hf] at hj
                injection hj with e
                omega
              · exact h3 u hu j hj
            · intro u hu j hj
              rcases List.mem_cons.mp hu with rfl | hu
              · rw [hf] at hj
                injection hj with e
                omega
              · exact h4 u hu j hj
          · intro hcon
            omega
        · obtain ⟨hbest, hmin⟩ := B hma
          injection hbest with e
          subst e
          constructor
          · intro _
            refine ⟨[], v, rest, by simp, ⟨by simpa using hf, rfl, rfl, rfl⟩, by simp, ?_⟩
            intro u hu j hj
            rcases List.mem_cons.mp hu with rfl | hu
            · rw [hf] at hj
              injection hj with e
              exact le_of_eq e
            · exact hmin u hu j hj
          · intro hcon
            exact absurd hlt hcon
      · rw [if_neg hlt] at h
        obtain ⟨A, B⟩ := ih rem best bestPos m h hb
        constructor
        · intro hma
          obtain ⟨l1, w, l2, h1, h2, h3, h4⟩ := A hma
          refine ⟨v :: l1, w, l2, by simp [h1], h2, ?_, ?_⟩
          · intro u hu j hj
            rcases List.mem_cons.mp hu with rfl | hu
            · rw [hf] at hj
              injection hj with e
              omega
            · exact h3 u hu j hj
          · intro u hu j hj
            rcases List.mem_cons.mp hu with rfl | hu
            · rw [hf] at hj
              injection hj with e
              omega
            · exact h4 u hu j hj
        · intro hma
          obtain ⟨h1, h2⟩ := B hma
          refine ⟨h1, ?_⟩
          intro u hu j hj
          rcases List.mem_cons.mp hu with rfl | hu
          · rw [hf] at hj
            injection hj with e
            omega
          · exact h2 u hu j hj

theorem findEarliest_spec {α : Type} (vars : List (Variation α)) (rem : Str) (m : MatchData α)
    (h : findEarliest vars rem = some m) :
    (∃ l1 v l2, vars = l1 ++ v :: l2 ∧ WSpec rem v m ∧
      (∀ u ∈ l1, ∀ i, findCI u.text rem = some i → m.start < i)) ∧
    (∀ u ∈ vars, ∀ i, findCI u.text rem = some i → m.start ≤ i) := by
  have hs := searchVars_spec vars rem none rem.length m
    (by simpa [findEarliest] using h) (by intro m' h'; cases h')
  by_cases hma : m.start < rem.length
  · obtain ⟨l1, v, l2, h1, h2, h3, h4⟩ := hs.1 hma
    exact ⟨⟨l1, v, l2, h1, h2, h3⟩, h4⟩
  · obtain ⟨hbest, -⟩ := hs.2 hma
    cases hbest

/-! ## Membership facts about the stable longest-first sort -/

theorem mem_insertDesc {α : Type} (key : α → Nat) (a x : α) :
    ∀ (l : List α), x ∈ insertDesc key a l ↔ x = a ∨ x ∈ l := by
  intro l
  induction l with
  | nil => simp [insertDesc]
  | cons y ys ih =>
    simp only [insertDesc]
    by_cases h : key y < key a
    · rw [if_pos h]
      simp [List.mem_cons]
    · rw [if_neg h]
      simp only [List.mem_cons, ih]
      tauto

theorem mem_pySortDesc_aux {α : Type} (key : α → Nat) (x : α) :
    ∀ (l acc : List α),
      x ∈ l.foldl (fun acc y => insertDesc key y acc) acc ↔ x ∈ acc ∨ x ∈ l := by
  intro l
  induction l with
  | nil => simp
  | cons y ys ih =>
    intro acc
    simp only [List.foldl_cons]
    rw [ih (insertDesc key y acc), mem_insertDesc]
    simp only [List.mem_cons]
    tauto

theorem mem_pySortDesc {α : Type} (key : α → Nat) (x : α) (l : List α) :
    x ∈ pySortDesc key l ↔ x ∈ l := by
  unfold pySortDesc
  rw [mem_pySortDesc_aux]
  simp

theorem mem_allVariations {v : Variation Entity} {es : List Entity}
    (h : v ∈ allVariations es) : ∃ e ∈ es, v.text ∈ e.variations := by
  simp only [allVariations, List.mem_flatMap, List.mem_map] at h
  obtain ⟨e, he, w, hw, rfl⟩ := h
  exact ⟨e, he, hw⟩

theorem projSuffix_ne : projSuffix ≠ [] := by decide

theorem buildEntities_var_ne {ps prs : List Str}
    (hps : ∀ n ∈ ps, n ≠ []) (hprs : ∀ n ∈ prs, n ≠ []) :
    ∀ e ∈ buildEntities ps prs, ∀ t ∈ e.variations, t ≠ [] := by
  intro e he t ht
  simp only [buildEntities, List.mem_append, List.mem_map] at he
  rcases he with ⟨n, hn, rfl⟩ | ⟨n, hn, rfl⟩
  · simp only [List.mem_cons, List.not_mem_nil, or_false] at ht
    rcases ht with h1 | h1
    · rw [h1]; exact hps n hn
    · rw [h1]
      intro hc
      exact projSuffix_ne (List.append_eq_nil.mp hc).2
  · simp only [List.mem_cons, List.not_mem_nil, or_false] at ht
    rcases ht with h1 | h1 | h1
    · rw [h1]; exact hprs n hn
    · rw [h1]
      intro hc
      exact projSuffix_ne (List.append_eq_nil.mp hc).2
    · rw [h1]
      intro hc
      exact projSuffix_ne (List.append_eq_nil.mp hc).2


/-! ## Characterization of the fuzzy-match loop -/

theorem fmpAux_char (sim : Str → Str → ℚ) (name : Str) (th : ℚ) :
    ∀ (people : List Person) (best : Option Person) (s0 : ℚ) (p : Person),
      fmpAux sim name th people best s0 = some p ↔
        ((best = some p ∧ ∀ q ∈ vScores sim name people, th ≤ q.2 → q.2 ≤ s0) ∨
         (∃ s l1 l2, vScores sim name people = l1 ++ (p, s) :: l2 ∧ th ≤ s ∧ s0 < s ∧
            (∀ q ∈ l1, th ≤ q.2 → q.2 < s) ∧ (∀ q ∈ l2, th ≤ q.2 → q.2 ≤ s))) := by
  intro people
  induction people with
  | nil =>
    intro best s0 p
    constructor
    · intro h
      left
      refine ⟨h, ?_⟩
      intro q hq
      simp [vScores] at hq
    · rintro (⟨h, -⟩ | ⟨s, l1, l2, heq, -⟩)
      · exact h
      · exfalso
        have hmem : ((p, s) : Person × ℚ) ∈ vScores sim name [] := by
          rw [heq]; simp
        simp [vScores] at hmem
  | cons p0 rest ih =>
    intro best s0 p
    cases ht : p0.title with
    | none =>
      have hv : vScores sim name (p0 :: rest) = vScores sim name rest := by
        simp [vScores, ht]
      have hl : fmpAux sim name th (p0 :: rest) best s0 = fmpAux sim name th rest best s0 := by
        simp [fmpAux, ht]
      rw [hl, ih best s0 p, hv]
    | some t =>
      have hv : vScores sim name (p0 :: rest)
          = (p0, sim (pyLower name) (pyLower t)) :: vScores sim name rest := by
        simp [vScores, ht]
      by_cases hup : s0 < sim (pyLower name) (pyLower t) ∧ th ≤ sim (pyLower name) (pyLower t)
      · have hl : fmpAux sim name th (p0 :: rest) best s0
            = fmpAux sim name th rest (some p0) (sim (pyLower name) (pyLower t)) := by
          simp only [fmpAux, ht]
          rw [if_pos hup]
        rw [hl, ih (some p0) (sim (pyLower name) (pyLower t)) p, hv]
        constructor
        · rintro (⟨hb, hall⟩ | ⟨s, l1, l2, heq, hs1, hs2, hl1, hl2⟩)
          · injection hb with hb'
            subst hb'
            right
            refine ⟨sim (pyLower name) (pyLower t), [], vScores sim name rest,
              by simp, hup.2, hup.1, by simp, ?_⟩
            intro q hq hq2
            exact hall q hq hq2
          · right
            refine ⟨s, (p0, sim (pyLower name) (pyLower t)) :: l1, l2, by simp [heq], hs1,
              lt_trans hup.1 hs2, ?_, hl2⟩
            intro q hq hq2
            rcases List.mem_cons.mp hq with rfl | hq
            · exact hs2
            · exact hl1 q hq hq2
        · rintro (⟨hb, hall⟩ | ⟨s, l1, l2, heq, hs1, hs2, hl1, hl2⟩)
          · exfalso
            have := hall (p0, sim (pyLower name) (pyLower t)) (by simp) hup.2
            exact absurd hup.1 (not_lt.mpr this)
          · cases l1 with
            | nil =>
              simp only [List.nil_append] at heq
              injection heq with he1 he2
              injection he1 with hp1 hc1
              subst hp1
              subst hc1
              left
              refine ⟨rfl, ?_⟩
              intro q hq hq2
              rw [he2] at hq
              exact hl2 q hq hq2
            | cons a l1x =>
              simp only [List.cons_append] at heq
              injection heq with he1 he2
              right
              refine ⟨s, l1x, l2, he2, hs1, ?_, ?_, hl2⟩
              · have h := hl1 a (List.mem_cons_self _ _)
                rw [← he1] at h
                exact h hup.2
              · intro q hq hq2
                exact hl1 q (List.mem_cons_of_mem _ hq) hq2
      · have hl : fmpAux sim name th (p0 :: rest) best s0 = fmpAux sim name th rest best s0 := by
          simp only [fmpAux, ht]
          rw [if_neg hup]
        have hcs0 : th ≤ sim (pyLower name) (pyLower t) → sim (pyLower name) (pyLower t) ≤ s0 := by
          intro h2
          by_contra h3
          exact hup ⟨lt_of_not_le h3, h2⟩
        rw [hl, ih best s0 p, hv]
        constructor
        · rintro (⟨hb, hall⟩ | ⟨s, l1, l2, heq, hs1, hs2, hl1, hl2⟩)
          · left
            refine ⟨hb, ?_⟩
            intro q hq hq2
            rcases List.mem_cons.mp hq with rfl | hq
            · exact hcs0 hq2
            · exact hall q hq hq2
          · right
            refine ⟨s, (p0, sim (pyLower name) (pyLower t)) :: l1, l2, by simp [heq], hs1, hs2,
              ?_, hl2⟩
            intro q hq hq2
            rcases List.mem_cons.mp hq with rfl | hq
            · exact lt_of_le_of_lt (hcs0 hq2) hs2
            · exact hl1 q hq hq2
        · rintro (⟨hb, hall⟩ | ⟨s, l1, l2, heq, hs1, hs2, hl1, hl2⟩)
          · left
            refine ⟨hb, ?_⟩
            intro q hq hq2
            exact hall q (List.mem_cons_of_mem _ hq) hq2
          · cases l1 with
            | nil =>
              exfalso
              simp only [List.nil_append] at heq
              injection heq with he1 he2
              injection he1 with hp1 hc1
              exact hup ⟨by rw [hc1]; exact hs2, by rw [hc1]; exact hs1⟩
            | cons a l1x =>
              simp only [List.cons_append] at heq
              injection heq with he1 he2
              right
              refine ⟨s, l1x, l2, he2, hs1, hs2, ?_, hl2⟩
              intro q hq hq2
              exact hl1 q (List.mem_cons_of_mem _ hq) hq2

/-- The clean characterization of `find_matching_person`: the returned record
is the first one in directory order achieving a positive score `s` that no
other record exceeds, and only when `s` clears the threshold. -/
theorem find_matching_person_char (sim : Str → Str → ℚ) (people : List Person) (name : Str)
    (th : ℚ) (p : Person) :
    find_matching_person sim people name th = some p ↔
      ∃ s l1 l2, vScores sim name people = l1 ++ (p, s) :: l2 ∧ th ≤ s ∧ 0 < s ∧
        (∀ q ∈ l1, q.2 < s) ∧ (∀ q ∈ l2, q.2 ≤ s) := by
  unfold find_matching_person
  rw [fmpAux_char]
  constructor
  · rintro (⟨hb, -⟩ | ⟨s, l1, l2, heq, hs1, hs2, hl1, hl2⟩)
    · cases hb
    · refine ⟨s, l1, l2, heq, hs1, hs2, ?_, ?_⟩
      · intro q hq
        by_cases hq2 : th ≤ q.2
        · exact hl1 q hq hq2
        · exact lt_of_lt_of_le (lt_of_not_le hq2) hs1
      · intro q hq
        by_cases hq2 : th ≤ q.2
        · exact hl2 q hq hq2
        · exact le_of_lt (lt_of_lt_of_le (lt_of_not_le hq2) hs1)
  · rintro ⟨s, l1, l2, heq, hs1, hs2, hl1, hl2⟩
    right
    exact ⟨s, l1, l2, heq, hs1, hs2, fun q hq _ => hl1 q hq, fun q hq _ => hl2 q hq⟩


/-! ## Claim theorems -/

/-- Claim C1 (amended): for every input text and all entity name lists whose
names are non-empty strings, both mention linkers return a span list whose
`content` fields concatenate to the original text. (With an empty name the
source's `while` loop never terminates, so no span list is produced at all:
see the counterexample.) -/
theorem c1_round_trip (personLink projectLink : Str → Option Str)
    (people_names project_names names : List Str) (text : Str)
    (hps : ∀ n ∈ people_names, n ≠ []) (hprs : ∀ n ∈ project_names, n ≠ [])
    (hn : ∀ n ∈ names, n ≠ []) :
    (∃ parts, create_rich_text_with_entity_links personLink projectLink people_names
        project_names text = some parts ∧ contentConcat parts = text) ∧
    (∃ parts, create_rich_text_with_people_links personLink names text = some parts ∧
        contentConcat parts = text) := by
  constructor
  · simp only [create_rich_text_with_entity_links]
    by_cases he : (buildEntities people_names project_names).isEmpty = true
    · rw [if_pos he]
      exact ⟨[⟨text, none⟩], rfl, by simp [contentConcat]⟩
    · rw [if_neg he]
      refine linkLoop_roundTrip _ _ _ _ ?_ (Nat.lt_succ_self _)
      intro v hv
      rw [mem_pySortDesc] at hv
      obtain ⟨e, he2, hte⟩ := mem_allVariations hv
      exact buildEntities_var_ne hps hprs e he2 v.text hte
  · simp only [create_rich_text_with_people_links]
    by_cases he : names.isEmpty = true
    · rw [if_pos he]
      exact ⟨[⟨text, none⟩], rfl, by simp [contentConcat]⟩
    · rw [if_neg he]
      refine linkLoop_roundTrip _ _ _ _ ?_ (Nat.lt_succ_self _)
      intro v hv
      simp only [List.mem_map] at hv
      obtain ⟨n, hn2, rfl⟩ := hv
      rw [mem_pySortDesc] at hn2
      exact hn n hn2

/-- Witness for C1 at a concrete input. -/
theorem c1_round_trip_witness :
    (∃ parts, create_rich_text_with_entity_links (fun n => some n) (fun n => some n)
        [("Ann").toList] [("Gaia").toList] (("Ann and Gaia").toList) = some parts ∧
        contentConcat parts = ("Ann and Gaia").toList) ∧
    (∃ parts, create_rich_text_with_people_links (fun n => some n)
        [("Ann").toList] (("Ann and Gaia").toList) = some parts ∧
        contentConcat parts = ("Ann and Gaia").toList) :=
  c1_round_trip (fun n => some n) (fun n => some n) [("Ann").toList] [("Gaia").toList]
    [("Ann").toList] (("Ann and Gaia").toList) (by decide) (by decide) (by decide)

/-- Counterexample to C1 as stated: for the entity list containing the empty
name and the text "a", the people linker produces no span list at all (the
source's `while` loop spins forever on the zero-width match), so no
concatenation reproduces the text; more fuel does not help. -/
theorem c1_empty_variation_cex :
    create_rich_text_with_people_links (fun _ => none) [[]] ('a' :: []) = none ∧
    linkLoop (fun _ : Str => none) 10 [(⟨[], []⟩ : Variation Str)] ('a' :: []) = none := by
  exact ⟨by decide, by decide⟩

/-- Claim C2: on `"Call Sam Lee"` with entities `"Sam"` and `"Sam Lee"`, both
linkers emit exactly the spans `"Call "` (plain) and `"Sam Lee"` (one entity
span); and in general the scan selects, among all variation matches in the
remaining text, the one with the smallest starting offset, a tie at that
offset going to the variation earliest in the scanned (length-descending)
order — every variation listed before the winner has its leftmost occurrence
strictly after the selected offset. -/
theorem c2_longest_wins :
    (create_rich_text_with_people_links (fun n => some n)
        [("Sam").toList, ("Sam Lee").toList] (("Call Sam Lee").toList)
      = some [⟨("Call ").toList, none⟩, ⟨("Sam Lee").toList, some (("Sam Lee").toList)⟩]) ∧
    (create_rich_text_with_entity_links (fun n => some n) (fun n => some n)
        [("Sam").toList, ("Sam Lee").toList] [] (("Call Sam Lee").toList)
      = some [⟨("Call ").toList, none⟩, ⟨("Sam Lee").toList, some (("Sam Lee").toList)⟩]) ∧
    (∀ (α : Type) (vars : List (Variation α)) (rem : Str) (m : MatchData α),
      findEarliest vars rem = some m →
      (∀ u ∈ vars, ∀ i, findCI u.text rem = some i → m.start ≤ i) ∧
      ∃ (l1 : List (Variation α)) (v : Variation α) (l2 : List (Variation α)),
        vars = l1 ++ v :: l2 ∧ WSpec rem v m ∧
        ∀ u ∈ l1, ∀ i, findCI u.text rem = some i → m.start < i) := by
  refine ⟨by decide, by decide, ?_⟩
  intro α vars rem m h
  obtain ⟨⟨l1, v, l2, h1, h2, h3⟩, h4⟩ := findEarliest_spec vars rem m h
  exact ⟨h4, l1, v, l2, h1, h2, h3⟩

/-- Witness for C2's general clause at a concrete scan. -/
theorem c2_longest_wins_witness :
    (∀ u ∈ [(⟨'a' :: [], 0⟩ : Variation Nat)], ∀ i, findCI u.text ('a' :: []) = some i →
      (0 : Nat) ≤ i) ∧
    (∃ (l1 : List (Variation Nat)) (v : Variation Nat) (l2 : List (Variation Nat)),
      [(⟨'a' :: [], 0⟩ : Variation Nat)] = l1 ++ v :: l2 ∧
      WSpec ('a' :: []) v ⟨0, 0, 1, 'a' :: []⟩ ∧
      ∀ u ∈ l1, ∀ i, findCI u.text ('a' :: []) = some i → (0 : Nat) < i) :=
  c2_longest_wins.2.2 Nat [⟨'a' :: [], 0⟩] ('a' :: []) ⟨0, 0, 1, 'a' :: []⟩ (by decide)

/-- Claim C3 (amended): `find_matching_person` returns `some p` exactly when
`p` is the first record in directory order achieving a similarity score `s`
with `threshold ≤ s` and additionally `0 < s` (records before it score
strictly below `s`, records after it at most `s`). The claim's "iff the
maximum is ≥ threshold" fails when the maximum is `0` and the threshold is
`≤ 0`: the loop's `score > best_score` test starts from `0.0`, so a zero
best score is never returned (see the counterexample). -/
theorem c3_resolver_max_tiebreak (sim : Str → Str → ℚ) (people : List Person) (name : Str)
    (threshold : ℚ) (p : Person) :
    find_matching_person sim people name threshold = some p ↔
      ∃ s l1 l2, vScores sim name people = l1 ++ (p, s) :: l2 ∧ threshold ≤ s ∧ 0 < s ∧
        (∀ q ∈ l1, q.2 < s) ∧ (∀ q ∈ l2, q.2 ≤ s) :=
  find_matching_person_char sim people name threshold p

/-- Witness for C3 at a concrete directory. -/
theorem c3_resolver_witness :
    find_matching_person (fun a b => if a = b then (1 : ℚ) else 0) [⟨some (("bob").toList)⟩]
      (("Bob").toList) 1 = some ⟨some (("bob").toList)⟩ := by
  rw [c3_resolver_max_tiebreak]
  exact ⟨1, [], [], by decide, le_refl 1, by norm_num, by simp, by simp⟩

/-- Counterexample to C3 as stated: with the constant-zero similarity (the
value `difflib` returns for disjoint strings such as "a" and "b") and
threshold `0`, the unique record attains the maximum score `0 ≥ threshold`,
yet the function returns nothing. -/
theorem c3_zero_threshold_cex :
    find_matching_person (fun _ _ => (0 : ℚ)) [⟨some ('b' :: [])⟩] ('a' :: []) 0 = none ∧
    vScores (fun _ _ => (0 : ℚ)) ('a' :: []) [⟨some ('b' :: [])⟩]
      = [(⟨some ('b' :: [])⟩, 0)] := by
  exact ⟨by decide, by decide⟩

/-- Claim C4: threshold monotonicity of the resolver — a match returned at
threshold `t` is returned unchanged at every `t' ≤ t`, and any threshold
strictly above every achievable score yields no match. -/
theorem c4_threshold_monotonic :
    (∀ (sim : Str → Str → ℚ) (people : List Person) (name : Str) (t t' : ℚ) (p : Person),
      t' ≤ t → find_matching_person sim people name t = some p →
      find_matching_person sim people name t' = some p) ∧
    (∀ (sim : Str → Str → ℚ) (people : List Person) (name : Str) (t2 : ℚ),
      (∀ q ∈ vScores sim name people, q.2 < t2) →
      find_matching_person sim people name t2 = none) := by
  constructor
  · intro sim people name t t' p hle h
    rw [find_matching_person_char] at h ⊢
    obtain ⟨s, l1, l2, heq, hs1, hs2, hl1, hl2⟩ := h
    exact ⟨s, l1, l2, heq, le_trans hle hs1, hs2, hl1, hl2⟩
  · intro sim people name t2 hall
    cases hfind : find_matching_person sim people name t2 with
    | none => rfl
    | some p =>
      exfalso
      rw [find_matching_person_char] at hfind
      obtain ⟨s, l1, l2, heq, hs1, -, -, -⟩ := hfind
      have hmem : ((p, s) : Person × ℚ) ∈ vScores sim name people := by
        rw [heq]; simp
      exact absurd hs1 (not_le.mpr (hall _ hmem))

/-- Witness for C4 at a concrete directory. -/
theorem c4_threshold_witness :
    find_matching_person (fun a b => if a = b then (1 : ℚ) else 0) [⟨some (("ann").toList)⟩]
      (("Ann").toList) (1 / 2) = some ⟨some (("ann").toList)⟩ ∧
    find_matching_person (fun a b => if a = b then (1 : ℚ) else 0) [⟨some (("ann").toList)⟩]
      (("Ann").toList) 2 = none := by
  constructor
  · exact c4_threshold_monotonic.1 _ _ _ 1 (1 / 2) _ (by norm_num) (by decide)
  · refine c4_threshold_monotonic.2 _ _ _ 2 ?_
    intro q hq
    have hv : vScores (fun a b => if a = b then (1 : ℚ) else 0) (("Ann").toList)
        [⟨some (("ann").toList)⟩] = [(⟨some (("ann").toList)⟩, (1 : ℚ))] := by decide
    rw [hv, List.mem_singleton] at hq
    rw [hq]
    norm_num

/-- Claim C5 (amended): if any page request of the paginated load fails, the
previously cached sequence is left unchanged (no partial overwrite), but the
operation does not fail with an error: `get_all_people` catches the exception
and returns the empty list, a value indistinguishable from an empty
directory. -/
theorem c5_fetch_failure (store : Option Nat → Except Unit Page) (fuel : Nat)
    (cache : Option (List Person)) (force_refresh : Bool)
    (hrun : cache = none ∨ force_refresh = true)
    (herr : fetchLoop store fuel none [] = some (Except.error ())) :
    get_all_people store fuel cache force_refresh = some (cache, []) := by
  unfold get_all_people
  have hc : (cache.isNone || force_refresh) = true := by
    rcases hrun with rfl | rfl <;> simp
  rw [if_pos hc, herr]

/-- Witness for C5 at a concrete failing store. -/
theorem c5_fetch_failure_witness :
    get_all_people (fun _ => Except.error ()) 5 (some [⟨some ('a' :: [])⟩]) true
      = some (some [⟨some ('a' :: [])⟩], []) :=
  c5_fetch_failure _ 5 _ true (Or.inr rfl) rfl

/-- Counterexample to C5 as stated: on a failing first page request with a
warm cache, `get_all_people` returns normally with `[]` — the same value an
empty directory produces — rather than failing with a `DirectoryUnavailable`
error (the cache is indeed untouched). -/
theorem c5_returns_empty_cex :
    get_all_people (fun _ => Except.error ()) 1 (some [⟨some ('b' :: [])⟩]) true
      = some (some [⟨some ('b' :: [])⟩], []) ∧
    get_all_people (fun _ => Except.ok ⟨[], false, none⟩) 1 none false
      = some (some [], []) := by
  exact ⟨rfl, rfl⟩

/-- Claim C6: a successful `create_person` sets the cache to `None`
(invalidation), so the next `get_all_people` performs a full paginated reload
and returns exactly what the store now lists — in particular the newly
created person; a failed creation leaves the cache untouched and returns no
record. -/
theorem c6_cache_invalidation (createResult : Except Unit Person) (cache : Option (List Person))
    (store : Option Nat → Except Unit Page) (fuel : Nat) (lnew : List Person) (p : Person) :
    (createResult = Except.ok p →
      (create_person createResult cache).1 = none ∧
      (fetchLoop store fuel none [] = some (Except.ok lnew) → p ∈ lnew →
        get_all_people store fuel (create_person createResult cache).1 false
          = some (some lnew, lnew) ∧ p ∈ lnew)) ∧
    (createResult = Except.error () → create_person createResult cache = (cache, none)) := by
  constructor
  · rintro rfl
    refine ⟨rfl, ?_⟩
    intro hfetch hmem
    refine ⟨?_, hmem⟩
    show get_all_people store fuel none false = _
    unfold get_all_people
    rw [if_pos (by simp), hfetch]
  · rintro rfl
    rfl

/-- Witness for C6 at a concrete store that lists the new person. -/
theorem c6_cache_invalidation_witness :
    (create_person (Except.ok (⟨some ('n' :: [])⟩ : Person)) (some [])).1 = none ∧
    get_all_people (fun _ => Except.ok ⟨[⟨some ('n' :: [])⟩], false, none⟩) 1
        (create_person (Except.ok (⟨some ('n' :: [])⟩ : Person)) (some [])).1 false
      = some (some [⟨some ('n' :: [])⟩], [⟨some ('n' :: [])⟩]) ∧
    (⟨some ('n' :: [])⟩ : Person) ∈ [(⟨some ('n' :: [])⟩ : Person)] := by
  have h := (c6_cache_invalidation (Except.ok ⟨some ('n' :: [])⟩) (some [])
    (fun _ => Except.ok ⟨[⟨some ('n' :: [])⟩], false, none⟩) 1 [⟨some ('n' :: [])⟩]
    ⟨some ('n' :: [])⟩).1 rfl
  have h2 := h.2 rfl (by decide)
  exact ⟨h.1, h2.1, h2.2⟩

/-- Claim C7 (amended): in `create_rich_text_with_entity_links` every person
name `n` yields the variation list `[n, n ++ " project"]` — not just the
canonical name — and every project name `n` yields
`[n, n ++ " project", "the " ++ n ++ " project"]`. -/
theorem c7_person_variations (people_names project_names : List Str) :
    (∀ n ∈ people_names,
      (⟨n, EntityType.person, [n, n ++ projSuffix]⟩ : Entity)
        ∈ buildEntities people_names project_names) ∧
    (∀ n ∈ project_names,
      (⟨n, EntityType.project, [n, n ++ projSuffix, thePrefixStr ++ n ++ projSuffix]⟩ : Entity)
        ∈ buildEntities people_names project_names) ∧
    (∀ e ∈ buildEntities people_names project_names,
      (e.etype = EntityType.person → e.variations = [e.name, e.name ++ projSuffix]) ∧
      (e.etype = EntityType.project →
        e.variations = [e.name, e.name ++ projSuffix, thePrefixStr ++ e.name ++ projSuffix])) := by
  refine ⟨?_, ?_, ?_⟩
  · exact fun n hn => List.mem_append.mpr (Or.inl (List.mem_map.mpr ⟨n, hn, rfl⟩))
  · exact fun n hn => List.mem_append.mpr (Or.inr (List.mem_map.mpr ⟨n, hn, rfl⟩))
  · intro e he
    simp only [buildEntities, List.mem_append, List.mem_map] at he
    rcases he with ⟨n, hn, rfl⟩ | ⟨n, hn, rfl⟩
    · exact ⟨fun _ => rfl, fun hcon => EntityType.noConfusion hcon⟩
    · exact ⟨fun hcon => EntityType.noConfusion hcon, fun _ => rfl⟩

/-- Witness for C7 at concrete names. -/
theorem c7_person_variations_witness :
    ((⟨("Sam").toList, EntityType.person, [("Sam").toList, ("Sam").toList ++ projSuffix]⟩ : Entity)
      ∈ buildEntities [("Sam").toList] [("Acme").toList]) ∧
    ((⟨("Acme").toList, EntityType.project, [("Acme").toList, ("Acme").toList ++ projSuffix,
        thePrefixStr ++ ("Acme").toList ++ projSuffix]⟩ : Entity)
      ∈ buildEntities [("Sam").toList] [("Acme").toList]) := by
  have h := c7_person_variations [("Sam").toList] [("Acme").toList]
  exact ⟨h.1 _ (by decide), h.2.1 _ (by decide)⟩

/-- Counterexample to C7 as stated: the person entity built for "Sam"
carries the extra surface form "Sam project", which differs from the
canonical name. -/
theorem c7_person_project_cex :
    buildEntities [("Sam").toList] []
      = [⟨("Sam").toList, EntityType.person, [("Sam").toList, ("Sam project").toList]⟩] ∧
    ("Sam project").toList ≠ ("Sam").toList := by
  exact ⟨by decide, by decide⟩

/-- Claim C8 (amended): `extract_person_names ""` returns the empty set and
neither operation fails; but the linker applied to empty text with an empty
entity set returns one plain span with empty content (the early
`if not entities` return), not an empty span sequence — the empty sequence
is produced only when the entity set is non-empty. -/
theorem c8_empty_input (personLink projectLink : Str → Option Str) :
    extract_person_names [] = [] ∧
    create_rich_text_with_entity_links personLink projectLink [] [] [] = some [⟨[], none⟩] ∧
    (∀ people_names project_names, buildEntities people_names project_names ≠ [] →
      create_rich_text_with_entity_links personLink projectLink people_names project_names []
        = some []) ∧
    (∀ names, names ≠ ([] : List Str) →
      create_rich_text_with_people_links personLink names [] = some []) := by
  refine ⟨rfl, rfl, ?_, ?_⟩
  · intro ps prs hne
    simp only [create_rich_text_with_entity_links]
    cases h : buildEntities ps prs with
    | nil => exact absurd h hne
    | cons e es => rfl
  · intro names hne
    cases names with
    | nil => exact absurd rfl hne
    | cons a l => rfl

/-- Witness for C8 at concrete inputs. -/
theorem c8_empty_input_witness :
    extract_person_names [] = [] ∧
    create_rich_text_with_entity_links (fun _ => none) (fun _ => none) [] [] []
      = some [⟨[], none⟩] ∧
    create_rich_text_with_entity_links (fun _ => none) (fun _ => none) ['a' :: []] [] []
      = some [] ∧
    create_rich_text_with_people_links (fun _ => none) ['a' :: []] [] = some [] := by
  have h := c8_empty_input (fun _ => (none : Option Str)) (fun _ => none)
  exact ⟨h.1, h.2.1, h.2.2.1 ['a' :: []] [] (by decide), h.2.2.2 ['a' :: []] (by decide)⟩

/-- Counterexample to C8 as stated: on empty text and empty entity set the
linker's result is a one-element span list, not the empty sequence. -/
theorem c8_nonempty_span_cex :
    create_rich_text_with_entity_links (fun _ => none) (fun _ => none) [] [] []
      = some [⟨[], none⟩] ∧
    some [(⟨[], none⟩ : RichText)] ≠ some ([] : List RichText) := by
  exact ⟨rfl, by decide⟩

/-- Claim C9: extraction on the spec's example keeps the attendee names and
drops the stoplisted words. -/
theorem c9_extraction_filter :
    (("Aaron").toList ∈ extract_person_names
      (("Meeting with Gaia Team. Attendees: Aaron, Darren, Susanna").toList)) ∧
    (("Darren").toList ∈ extract_person_names
      (("Meeting with Gaia Team. Attendees: Aaron, Darren, Susanna").toList)) ∧
    (("Susanna").toList ∈ extract_person_names
      (("Meeting with Gaia Team. Attendees: Aaron, Darren, Susanna").toList)) ∧
    (("Team").toList ∉ extract_person_names
      (("Meeting with Gaia Team. Attendees: Aaron, Darren, Susanna").toList)) ∧
    (("Meeting").toList ∉ extract_person_names
      (("Meeting with Gaia Team. Attendees: Aaron, Darren, Susanna").toList)) := by
  decide

/-- Claim C10: the linker matches raw case-insensitive substrings with no
word-boundary test — on the single entity "Sam" and the text "Samantha" it
emits an entity span covering exactly the embedded "Sam" plus a plain
"antha"; and in general every case-insensitive occurrence of a variation,
word-embedded or not, is found by the scan at or before its position. -/
theorem c10_no_word_boundary :
    (create_rich_text_with_people_links (fun n => some n) [("Sam").toList] (("Samantha").toList)
      = some [⟨("Sam").toList, some (("Sam").toList)⟩, ⟨("antha").toList, none⟩]) ∧
    (∀ (pat s : Str) (i : Nat), ciAt pat (s.drop i) = true →
      ∃ j, j ≤ i ∧ findCI pat s = some j) := by
  exact ⟨by decide, fun pat s i h => findCI_complete h⟩

/-- Witness for C10's general clause at a concrete occurrence. -/
theorem c10_no_word_boundary_witness :
    ∃ j, j ≤ 0 ∧ findCI (("Sam").toList) (("Samantha").toList) = some j :=
  c10_no_word_boundary.2 (("Sam").toList) (("Samantha").toList) 0 (by decide)

end NotionManager
